import Mathlib

/-!
Verification of the functor-framework bounded-complexity DAG engine.

The definitions below are a shallow embedding of `src/core/dag-engine/mod.rs`,
`src/iaas/design-protocol/mod.rs` and `src/hdis/intergration_compliance_hdis_repo.rs`.
Rust `HashMap<NodeId, Node<T>>` with dense sequential ids is embedded as a
`List (Node T)` indexed by position (ids are assigned densely at insertion and
nothing is ever removed).  Functions that the source calls but does not define
(`compute_depth`, `find_roots`, `add_edge`) are modelled from the spec and are
marked as such in their doc comments.
-/

/-- ceil(log2 n) as the Rust source computes it by
`(n as f64).log2().ceil() as usize`: the value is 0 for n = 0 (the negative
infinity saturates to 0 in the float-to-usize cast) and for n = 1, and the
least k with n ≤ 2 ^ k otherwise.  `clog2Aux` is the same function with an
explicit structural fuel (the first argument); fuel n is enough because the
argument at least halves at every step. -/
def clog2Aux : Nat → Nat → Nat
  | 0, _ => 0
  | fuel + 1, n => if n ≤ 1 then 0 else clog2Aux fuel ((n + 1) / 2) + 1

/-- ceil(log2 n) with the Rust cast conventions (0 at n = 0 and n = 1). -/
def clog2 (n : Nat) : Nat := clog2Aux n n

/-- Error returned by `DAG::add_node` when the depth bound would be broken. -/
inductive DepthViolation where
  | ExceedsLogN
deriving DecidableEq, Repr

/-- Error returned by `DAG::traverse` when the pending-visit stack would
exceed its bound. -/
inductive AuxSpaceViolation where
  | StackOverflow
deriving DecidableEq, Repr

/-- Modelled from the spec: `add_edge` fails with a `CycleViolation` when the
requested edge would create a cycle; the type itself is absent from src. -/
inductive CycleViolation where
  | CreatesCycle
deriving DecidableEq, Repr

/-- Modelled from the spec: the error type of `add_edge`
(`Result<(), DepthViolation | CycleViolation>`).  The `invalidNode` case
covers arguments that name no existing node, a situation the spec leaves
unspecified; it is rejected without mutation. -/
inductive AddEdgeError where
  | depthErr (e : DepthViolation)
  | cycleErr (e : CycleViolation)
  | invalidNode
deriving DecidableEq, Repr

/-- A node of the DAG: payload plus the ordered list of child ids, as in
`Node { data, edges }` of the source. -/
structure Node (T : Type) where
  data : T
  edges : List Nat
deriving DecidableEq, Repr

/-- The graph of `src/core/dag-engine/mod.rs`: node storage plus the
`max_depth` scalar.  Ids are dense (the node with id i sits at position i),
embedding the Rust `HashMap<NodeId, Node<T>>` with sequentially assigned
ids. -/
structure DAG (T : Type) where
  nodes : List (Node T)
  max_depth : Nat
deriving DecidableEq, Repr

/-- `DAG::new()`: empty node storage, `max_depth` 0. -/
def DAG.new (T : Type) : DAG T := { nodes := [], max_depth := 0 }

variable {T : Type}

/-- Edge list of the node with id u (empty when no such node exists). -/
def DAG.edgesOf (g : DAG T) (u : Nat) : List Nat :=
  match g.nodes[u]? with
  | some nd => nd.edges
  | none => []

/-- Ids of the nodes holding an edge into v, in ascending order. -/
def DAG.parents (g : DAG T) (v : Nat) : List Nat :=
  (List.range g.nodes.length).filter (fun u => decide (v ∈ g.edgesOf u))

/-- Longest ancestor-chain length ending at v, computed with explicit fuel:
0 for a root, otherwise 1 + the maximum over the parents (at one less fuel). -/
def DAG.depthF (g : DAG T) : Nat → Nat → Nat
  | 0, _ => 0
  | fuel + 1, v => ((g.parents v).map (fun u => g.depthF fuel u + 1)).foldr max 0

/-- Modelled from the spec: `compute_depth` is called by `add_node` but is
absent from src.  The spec defines a node's depth as 1 + the maximum depth of
any node referencing it as a child, or 0 for a (potential) root, and states
that at insertion time the fresh node has no referencing parent and so has
depth 0.  Fuel `g.nodes.length` is enough on every graph whose ancestor
chains are bounded by the node count, and the value at the fresh id is 0
independently of the fuel. -/
def DAG.compute_depth (g : DAG T) (id : Nat) : Nat :=
  g.depthF g.nodes.length id

/-- `DAG::add_node` of the source: draws the fresh id, computes the candidate
depth, rejects with `DepthViolation::ExceedsLogN` when
`depth > (self.nodes.len() as f64).log2().ceil() as usize` (the count before
insertion), and otherwise inserts the node with an empty edge list and raises
`max_depth`.  The mutated graph is returned as the second component; on the
error path the source returns before any mutation. -/
def DAG.add_node (g : DAG T) (data : T) : Except DepthViolation Nat × DAG T :=
  if g.compute_depth g.nodes.length > clog2 g.nodes.length then
    (.error .ExceedsLogN, g)
  else
    (.ok g.nodes.length,
      { nodes := g.nodes ++ [{ data := data, edges := [] }],
        max_depth := max g.max_depth (g.compute_depth g.nodes.length) })

/-- Fuel-bounded reachability along edges: `reachF fuel a b` holds when some
edge path of length at most fuel leads from a to b (including the empty
path). -/
def DAG.reachF (g : DAG T) : Nat → Nat → Nat → Bool
  | 0, a, b => a == b
  | fuel + 1, a, b => a == b || (g.edgesOf a).any (fun c => g.reachF fuel c b)

/-- Append one edge out of p, leaving everything else unchanged. -/
def DAG.setEdges (g : DAG T) (p c : Nat) : DAG T :=
  match g.nodes[p]? with
  | some nd => { g with nodes := g.nodes.set p { nd with edges := nd.edges ++ [c] } }
  | none => g

/-- Bool form of invariant I2: every node's longest ancestor chain is at most
b.  `depthLe g b v` holds exactly when every ancestor chain ending at v has
length at most b (structural recursion on the bound; a node lying on a cycle
fails the test at every bound). -/
def DAG.depthLe (g : DAG T) : Nat → Nat → Bool
  | 0, v => (g.parents v).isEmpty
  | b + 1, v => (g.parents v).all (fun u => g.depthLe b u)

/-- Bool form of the global depth invariant: every node's depth is at most
ceil(log2 n) for the current node count n. -/
def DAG.DepthOkB (g : DAG T) : Bool :=
  (List.range g.nodes.length).all (fun v => g.depthLe (clog2 g.nodes.length) v)

/-- Modelled from the spec: `add_edge(parent, child)` appears in the spec's
component design but is absent from src.  Following the spec it fails with a
`CycleViolation` when child is an ancestor of parent, otherwise appends the
edge and re-validates invariant I2 (the depth bound) for the whole graph,
failing atomically with a `DepthViolation` when any node would breach the
bound.  Arguments naming no existing node are rejected without mutation. -/
def DAG.add_edge (g : DAG T) (parent child : Nat) : Except AddEdgeError Unit × DAG T :=
  if g.nodes.length ≤ parent ∨ g.nodes.length ≤ child then
    (.error .invalidNode, g)
  else if g.reachF g.nodes.length child parent then
    (.error (.cycleErr .CreatesCycle), g)
  else if (g.setEdges parent child).DepthOkB then
    (.ok (), g.setEdges parent child)
  else
    (.error (.depthErr .ExceedsLogN), g)

/-- Modelled from the spec: `find_roots` is called by `traverse` but is absent
from src.  Per the spec it returns the roots (nodes with no incoming edge) in
ascending insertion (id) order. -/
def DAG.find_roots (g : DAG T) : List Nat :=
  (List.range g.nodes.length).filter (fun v => (g.parents v).isEmpty)

/-- Observable traversal state: the explicit pending-visit stack, its
high-water mark, the ids pushed by `dfs_bounded` in order, and the ids whose
payload was passed to the visitor.  The source's `dfs_bounded` body is a
stub (guard, push, a `Process node...` placeholder, pop): it never invokes
the visitor and never descends into edges, so `calls` is never extended. -/
structure TravState where
  stack : List Nat
  peak : Nat
  visited : List Nat
  calls : List Nat
deriving DecidableEq, Repr

/-- The empty traversal state `traverse` starts from. -/
def TravState.init : TravState := { stack := [], peak := 0, visited := [], calls := [] }

/-- `DAG::dfs_bounded` of the source: errors with
`AuxSpaceViolation::StackOverflow` when `stack.len() >= max_size`, otherwise
pushes the node id, processes nothing (the body is a stub), and pops.  The
state after the call is returned as the second component. -/
def DAG.dfs_bounded (_g : DAG T) (maxSize : Nat) (s : TravState) (nodeId : Nat) :
    Except AuxSpaceViolation Unit × TravState :=
  if maxSize ≤ s.stack.length then
    (.error .StackOverflow, s)
  else
    let pushed := nodeId :: s.stack
    let s₁ : TravState :=
      { stack := pushed, peak := max s.peak pushed.length,
        visited := s.visited ++ [nodeId], calls := s.calls }
    (.ok (), { s₁ with stack := s₁.stack.tail })

/-- The root loop of `DAG::traverse`: runs `dfs_bounded` on each root in
order, short-circuiting on the first error (the source's `?`). -/
def DAG.traverseAux (g : DAG T) (maxSize : Nat) :
    List Nat → TravState → Except AuxSpaceViolation Unit × TravState
  | [], s => (.ok (), s)
  | r :: rs, s =>
    match g.dfs_bounded maxSize s r with
    | (.ok _, s₁) => g.traverseAux maxSize rs s₁
    | (.error e, s₁) => (.error e, s₁)

/-- `DAG::traverse` of the source: computes the stack bound
ceil(log2 n), starts from an empty stack and runs `dfs_bounded` over
`find_roots`.  The visitor argument is carried as in the source signature;
the source never invokes it. -/
def DAG.traverse (g : DAG T) (f : T → Unit) : Except AuxSpaceViolation Unit × TravState :=
  g.traverseAux (clog2 g.nodes.length) g.find_roots TravState.init

/-- A public-API call on the graph: `add_node`, or the spec's `add_edge`. -/
inductive Op (T : Type) where
  | addNode (data : T)
  | addEdge (parent child : Nat)

/-- Apply one API call, keeping the state the call leaves behind (a failed
call leaves the graph unchanged). -/
def applyOp (g : DAG T) (op : Op T) : DAG T :=
  match op with
  | .addNode d => (g.add_node d).2
  | .addEdge p c => (g.add_edge p c).2

/-- The graph produced by a sequence of API calls starting from `DAG::new`. -/
def runOps (ops : List (Op T)) : DAG T := ops.foldl applyOp (DAG.new T)

/-- The graph produced by `add_node` calls only: the full mutating interface
that src actually defines. -/
def runNodesOnly (ds : List T) : DAG T :=
  ds.foldl (fun g d => (g.add_node d).2) (DAG.new T)

/-- Every edge target names an existing node. -/
def DAG.EdgesClosed (g : DAG T) : Prop :=
  ∀ u v, v ∈ g.edgesOf u → v < g.nodes.length

/-- The invariant maintained by the public API: edge targets exist and the
global depth bound holds. -/
def DAG.Inv (g : DAG T) : Prop :=
  g.EdgesClosed ∧ g.DepthOkB = true

/-- Ancestor chains: `ChainTo g v k` holds when some chain of k parent steps
ends at v.  The longest such k is the node's depth (spec glossary: longest
edge-path length from any root to the node). -/
inductive ChainTo (g : DAG T) : Nat → Nat → Prop where
  | zero (v : Nat) : ChainTo g v 0
  | succ {v u k : Nat} : u ∈ g.parents v → ChainTo g u k → ChainTo g v (k + 1)

/-- Reachability along edges (reflexive-transitive closure). -/
inductive Reach (g : DAG T) : Nat → Nat → Prop where
  | refl (a : Nat) : Reach g a a
  | step {a b c : Nat} : b ∈ g.edgesOf a → Reach g b c → Reach g a c

/-- Modelled from the spec: the enumerated complexity class every
pipeline-bearing payload declares.  The type is referenced but not defined in
src; the spec requires at minimum the value logarithmic, plus disqualifying
alternatives. -/
inductive Complexity where
  | LogN
  | Constant
  | Linear
  | Quadratic
deriving DecidableEq, Repr

/-- The error of `DesignSolution::validate_complexity`, carrying the expected
and the actually declared class. -/
inductive ComplexityViolation where
  | Expected (expected : Complexity) (actual : Complexity)
deriving DecidableEq, Repr

/-- The part of the `DesignSolution` trait the claims touch: the declared
complexity accessor. -/
structure DesignSolution where
  complexity : Complexity
deriving DecidableEq, Repr

/-- `DesignSolution::validate_complexity` of the source: `Ok(())` on `LogN`,
otherwise `ComplexityViolation::Expected { expected: LogN, actual: other }`. -/
def DesignSolution.validate_complexity (s : DesignSolution) : Except ComplexityViolation Unit :=
  match s.complexity with
  | .LogN => .ok ()
  | other => .error (.Expected Complexity.LogN other)

/-- Registration-time error of the HDIS integration.  `fromDepth` embeds the
`?`-conversion of the `DepthViolation` coming out of `add_node`; `rejected`
stands for the external monitor's own synchronous rejections. -/
inductive TopologyError where
  | fromDepth (e : DepthViolation)
  | rejected (code : Nat)
deriving DecidableEq, Repr

/-- Modelled from the spec: the external state-awareness/self-repair monitor
(`HybridDirectedInstruction`) is an excluded collaborator; only its boundary
contract is specified.  It is embedded as the pair of oracles the core calls,
each free to reject synchronously. -/
structure HybridDirectedInstruction (A : Type) where
  register_component : Nat → A → Except TopologyError Unit
  enable_self_repair : Nat → Except TopologyError Unit

/-- `HDISIntegration` of `src/hdis/intergration_compliance_hdis_repo.rs`:
the DAG plus the external monitor. -/
structure HDISIntegration (A : Type) where
  dag : DAG A
  hdis : HybridDirectedInstruction A

/-- `HDISIntegration::register_archerion` of the source: insert into the DAG
with `add_node`, then notify the monitor (`register_component`, then
`enable_self_repair`), propagating the first error with `?`.  The source
performs no rollback on a monitor error: the node stays inserted. -/
def HDISIntegration.register_archerion {A : Type} (h : HDISIntegration A) (a : A) :
    Except TopologyError Unit × HDISIntegration A :=
  match h.dag.add_node a with
  | (.error e, dag₁) => (.error (.fromDepth e), { h with dag := dag₁ })
  | (.ok id, dag₁) =>
    match h.hdis.register_component id a with
    | .error e => (.error e, { h with dag := dag₁ })
    | .ok _ =>
      match h.hdis.enable_self_repair id with
      | .error e => (.error e, { h with dag := dag₁ })
      | .ok _ => (.ok (), { h with dag := dag₁ })

/-! Arithmetic facts about `clog2`. -/

lemma clog2Aux_le_iff : ∀ (fuel n k : Nat), n ≤ fuel → (clog2Aux fuel n ≤ k ↔ n ≤ 2 ^ k) := by
  intro fuel
  induction fuel with
  | zero =>
    intro n k h
    have hn : n = 0 := Nat.le_zero.mp h
    subst hn
    simp [clog2Aux]
  | succ fuel ih =>
    intro n k h
    by_cases h1 : n ≤ 1
    · have h2 : n ≤ 2 ^ k := le_trans h1 Nat.one_le_two_pow
      simp [clog2Aux, h1, h2]
    · have h2 : 2 ≤ n := by omega
      have hfuel : (n + 1) / 2 ≤ fuel := by omega
      cases k with
      | zero =>
        simp [clog2Aux, h1]
      | succ k =>
        have hrec := ih ((n + 1) / 2) k hfuel
        simp only [clog2Aux, h1, if_false]
        rw [Nat.succ_le_succ_iff, hrec, pow_succ]
        omega

lemma clog2_le_iff (n k : Nat) : clog2 n ≤ k ↔ n ≤ 2 ^ k :=
  clog2Aux_le_iff n n k (le_refl n)

lemma le_pow_clog2 (n : Nat) : n ≤ 2 ^ clog2 n :=
  (clog2_le_iff n (clog2 n)).mp (le_refl _)

lemma clog2_mono {m n : Nat} (h : m ≤ n) : clog2 m ≤ clog2 n :=
  (clog2_le_iff m (clog2 n)).mpr (le_trans h (le_pow_clog2 n))

/-! Basic facts about edges, parents and the bounded-depth test. -/

lemma DAG.edgesOf_out {g : DAG T} {u : Nat} (h : g.nodes.length ≤ u) :
    g.edgesOf u = [] := by
  simp [DAG.edgesOf, List.getElem?_eq_none h]

lemma DAG.edge_src_lt {g : DAG T} {u v : Nat} (h : v ∈ g.edgesOf u) :
    u < g.nodes.length := by
  by_contra hc
  rw [g.edgesOf_out (le_of_not_lt hc)] at h
  exact absurd h (List.not_mem_nil v)

lemma DAG.mem_parents {g : DAG T} {u v : Nat} :
    u ∈ g.parents v ↔ u < g.nodes.length ∧ v ∈ g.edgesOf u := by
  simp [DAG.parents, List.mem_filter, List.mem_range]

lemma DAG.parents_eq_nil {g : DAG T} {v : Nat} (h : ∀ u, v ∉ g.edgesOf u) :
    g.parents v = [] := by
  rw [DAG.parents, List.filter_eq_nil_iff]
  intro u _
  simp [h u]

lemma list_all_congr {α : Type} {l : List α} {f f' : α → Bool}
    (h : ∀ a ∈ l, f a = f' a) : l.all f = l.all f' := by
  induction l with
  | nil => rfl
  | cons a l ih =>
    simp only [List.all_cons]
    rw [h a (List.mem_cons_self a l), ih (fun b hb => h b (List.mem_cons_of_mem a hb))]

lemma DAG.depthLe_of_parents_nil {g : DAG T} {v : Nat} (h : g.parents v = []) :
    ∀ b, g.depthLe b v = true := by
  intro b
  cases b with
  | zero => simp [DAG.depthLe, h]
  | succ b => simp [DAG.depthLe, h]

lemma DAG.depthLe_succ_of_depthLe {g : DAG T} :
    ∀ {b v : Nat}, g.depthLe b v = true → g.depthLe (b + 1) v = true := by
  intro b
  induction b with
  | zero =>
    intro v h
    rw [DAG.depthLe] at h
    exact g.depthLe_of_parents_nil (List.isEmpty_iff.mp h) 1
  | succ b ih =>
    intro v h
    rw [DAG.depthLe, List.all_eq_true] at h ⊢
    exact fun u hu => ih (h u hu)

lemma DAG.depthLe_mono {g : DAG T} {b b' v : Nat} (hbb : b ≤ b')
    (h : g.depthLe b v = true) : g.depthLe b' v = true := by
  induction hbb with
  | refl => exact h
  | step _ ih => exact g.depthLe_succ_of_depthLe ih

lemma DAG.depthLe_congr {g g' : DAG T} (hp : ∀ w, g'.parents w = g.parents w) :
    ∀ (b v : Nat), g'.depthLe b v = g.depthLe b v := by
  intro b
  induction b with
  | zero => intro v; rw [DAG.depthLe, DAG.depthLe, hp v]
  | succ b ih =>
    intro v
    rw [DAG.depthLe, DAG.depthLe, hp v]
    exact list_all_congr (fun u _ => ih u)

/-- The bounded-depth test says exactly that every ancestor chain ending at v
has length at most b. -/
lemma DAG.depthLe_iff_chains {g : DAG T} :
    ∀ (b v : Nat), g.depthLe b v = true ↔ ∀ k, ChainTo g v k → k ≤ b := by
  intro b
  induction b with
  | zero =>
    intro v
    constructor
    · intro h k hk
      cases hk with
      | zero => exact le_refl 0
      | succ hu _ =>
        rw [DAG.depthLe, List.isEmpty_iff] at h
        rw [h] at hu
        exact absurd hu (List.not_mem_nil _)
    · intro h
      rw [DAG.depthLe, List.isEmpty_iff]
      by_contra hne
      obtain ⟨u, hu⟩ := List.exists_mem_of_ne_nil _ hne
      exact absurd (h 1 (ChainTo.succ hu (ChainTo.zero u))) (by omega)
  | succ b ih =>
    intro v
    constructor
    · intro h k hk
      cases hk with
      | zero => exact Nat.zero_le _
      | succ hu hc =>
        rw [DAG.depthLe, List.all_eq_true] at h
        have := (ih _).mp (h _ hu) _ hc
        omega
    · intro h
      rw [DAG.depthLe, List.all_eq_true]
      intro u hu
      exact (ih u).mpr (fun k hk => by
        have := h (k + 1) (ChainTo.succ hu hk)
        omega)

/-! Effect of the two mutating operations on edges and parents. -/

lemma DAG.edgesOf_snoc (g : DAG T) (d : T) (m u : Nat) :
    (DAG.mk (g.nodes ++ [{ data := d, edges := [] }]) m).edgesOf u = g.edgesOf u := by
  unfold DAG.edgesOf
  simp only [List.getElem?_append]
  by_cases h : u < g.nodes.length
  · rw [if_pos h]
  · rw [if_neg h, List.getElem?_eq_none (l := g.nodes) (le_of_not_lt h)]
    cases heq : u - g.nodes.length with
    | zero => rfl
    | succ k => rfl

lemma DAG.parents_snoc (g : DAG T) (d : T) (m v : Nat) :
    (DAG.mk (g.nodes ++ [{ data := d, edges := [] }]) m).parents v = g.parents v := by
  unfold DAG.parents
  simp only [DAG.edgesOf_snoc, List.length_append, List.length_cons, List.length_nil]
  rw [List.range_succ, List.filter_append]
  have hlast : List.filter (fun u => decide (v ∈ g.edgesOf u)) [g.nodes.length] = [] := by
    simp [g.edgesOf_out (le_refl g.nodes.length)]
  rw [hlast, List.append_nil]

lemma DAG.parents_fresh {g : DAG T} (h : g.EdgesClosed) :
    g.parents g.nodes.length = [] :=
  g.parents_eq_nil (fun u hu => absurd (h u _ hu) (lt_irrefl _))

lemma DAG.depthF_of_parents_nil {g : DAG T} {v : Nat} (h : g.parents v = []) :
    ∀ fuel, g.depthF fuel v = 0 := by
  intro fuel
  cases fuel with
  | zero => rfl
  | succ fuel => rw [DAG.depthF, h]; rfl

lemma DAG.compute_depth_fresh {g : DAG T} (h : g.EdgesClosed) :
    g.compute_depth g.nodes.length = 0 :=
  g.depthF_of_parents_nil (g.parents_fresh h) g.nodes.length

/-- On every graph satisfying the closure invariant, `add_node` takes its
success branch: the fresh node is a potential root of depth 0, and
0 never exceeds the bound. -/
lemma DAG.add_node_spec {g : DAG T} (h : g.EdgesClosed) (d : T) :
    g.add_node d =
      (.ok g.nodes.length,
        { nodes := g.nodes ++ [{ data := d, edges := [] }], max_depth := g.max_depth }) := by
  unfold DAG.add_node
  rw [g.compute_depth_fresh h]
  simp

/-- Branch analysis of `add_node` on an arbitrary graph: either the error
path (graph unchanged) or the success path (one node appended). -/
lemma DAG.add_node_cases (g : DAG T) (d : T) :
    ((g.add_node d).1 = .error .ExceedsLogN ∧ (g.add_node d).2 = g)
    ∨ ((g.add_node d).1 = .ok g.nodes.length
        ∧ (g.add_node d).2.nodes = g.nodes ++ [{ data := d, edges := [] }]) := by
  unfold DAG.add_node
  by_cases hc : g.compute_depth g.nodes.length > clog2 g.nodes.length
  · left; rw [if_pos hc]; exact ⟨rfl, rfl⟩
  · right; rw [if_neg hc]; exact ⟨rfl, rfl⟩

lemma DAG.length_setEdges (g : DAG T) (p c : Nat) :
    (g.setEdges p c).nodes.length = g.nodes.length := by
  unfold DAG.setEdges
  cases h : g.nodes[p]? with
  | none => rfl
  | some nd => simp

lemma DAG.edgesOf_setEdges_of_lt {g : DAG T} {p : Nat} (hp : p < g.nodes.length) (c u : Nat) :
    (g.setEdges p c).edgesOf u =
      if u = p then g.edgesOf p ++ [c] else g.edgesOf u := by
  have hsome : g.nodes[p]? = some g.nodes[p] := List.getElem?_eq_getElem hp
  unfold DAG.setEdges DAG.edgesOf
  rw [hsome]
  by_cases hu : u = p
  · subst hu
    rw [if_pos rfl, List.getElem?_set_self ?h]
    case h => exact hp
  · rw [if_neg hu, List.getElem?_set_ne (fun he => hu he.symm)]

/-! The public-API invariant and its preservation. -/

lemma DAG.depthOk_spec {g : DAG T} (h : g.DepthOkB = true) {v : Nat}
    (hv : v < g.nodes.length) : g.depthLe (clog2 g.nodes.length) v = true := by
  rw [DAG.DepthOkB, List.all_eq_true] at h
  exact h v (List.mem_range.mpr hv)

lemma DAG.Inv_new : (DAG.new T).Inv := by
  constructor
  · intro u v hv
    simp [DAG.new, DAG.edgesOf] at hv
  · rfl

lemma DAG.Inv_add_node {g : DAG T} (h : g.Inv) (d : T) : (g.add_node d).2.Inv := by
  rw [DAG.add_node_spec h.1 d]
  constructor
  · intro u v hv
    rw [g.edgesOf_snoc d g.max_depth u] at hv
    have := h.1 u v hv
    simp only [List.length_append, List.length_cons, List.length_nil]
    omega
  · rw [DAG.DepthOkB, List.all_eq_true]
    intro v hv
    rw [List.mem_range] at hv
    simp only [List.length_append, List.length_cons, List.length_nil] at hv ⊢
    rw [DAG.depthLe_congr (g.parents_snoc d g.max_depth)]
    by_cases hvn : v < g.nodes.length
    · exact DAG.depthLe_mono (clog2_mono (Nat.le_succ _)) (g.depthOk_spec h.2 hvn)
    · have hv' : v = g.nodes.length := by omega
      subst hv'
      exact g.depthLe_of_parents_nil (g.parents_fresh h.1) _

lemma DAG.Inv_add_edge {g : DAG T} (h : g.Inv) (p c : Nat) : (g.add_edge p c).2.Inv := by
  unfold DAG.add_edge
  by_cases h1 : g.nodes.length ≤ p ∨ g.nodes.length ≤ c
  · rw [if_pos h1]; exact h
  · rw [if_neg h1]
    push_neg at h1
    by_cases h2 : g.reachF g.nodes.length c p = true
    · rw [if_pos h2]; exact h
    · rw [if_neg h2]
      by_cases h3 : (g.setEdges p c).DepthOkB = true
      · rw [if_pos h3]
        refine ⟨?_, h3⟩
        intro u v hv
        rw [g.edgesOf_setEdges_of_lt h1.1 c u] at hv
        rw [g.length_setEdges p c]
        by_cases hu : u = p
        · rw [if_pos hu] at hv
          rcases List.mem_append.mp hv with hv | hv
          · exact h.1 p v hv
          · rw [List.mem_singleton] at hv
            subst hv
            exact h1.2
        · rw [if_neg hu] at hv
          exact h.1 u v hv
      · rw [if_neg h3]; exact h

lemma DAG.Inv_applyOp {g : DAG T} (h : g.Inv) (op : Op T) : (applyOp g op).Inv := by
  cases op with
  | addNode d => exact DAG.Inv_add_node h d
  | addEdge p c => exact DAG.Inv_add_edge h p c

lemma Inv_foldl : ∀ (ops : List (Op T)) {g : DAG T}, g.Inv → (ops.foldl applyOp g).Inv := by
  intro ops
  induction ops with
  | nil => intro g h; exact h
  | cons op ops ih => intro g h; exact ih (DAG.Inv_applyOp h op)

/-- Every graph reachable through the public API satisfies the invariant. -/
lemma Inv_runOps (ops : List (Op T)) : (runOps ops).Inv :=
  Inv_foldl ops DAG.Inv_new

/-! Acyclicity follows from the bounded-depth invariant: along an edge the
bound strictly descends, so no edge can close a cycle. -/

lemma DAG.depthLe_strict_of_edge {g : DAG T} {u v b : Nat}
    (he : v ∈ g.edgesOf u) (hd : g.depthLe b v = true) :
    ∃ b', b = b' + 1 ∧ g.depthLe b' u = true := by
  cases b with
  | zero =>
    exfalso
    rw [DAG.depthLe, List.isEmpty_iff] at hd
    have hu : u ∈ g.parents v := DAG.mem_parents.mpr ⟨g.edge_src_lt he, he⟩
    rw [hd] at hu
    exact absurd hu (List.not_mem_nil u)
  | succ b =>
    refine ⟨b, rfl, ?_⟩
    rw [DAG.depthLe, List.all_eq_true] at hd
    exact hd u (DAG.mem_parents.mpr ⟨g.edge_src_lt he, he⟩)

lemma DAG.reach_descent {g : DAG T} {c a : Nat} (hr : Reach g c a) :
    ∀ b, g.depthLe b a = true → ∃ b', b' ≤ b ∧ g.depthLe b' c = true := by
  induction hr with
  | refl x => exact fun b hb => ⟨b, le_refl b, hb⟩
  | step he _hr ih =>
    intro b hb
    obtain ⟨b1, hb1, hd1⟩ := ih b hb
    obtain ⟨b2, heq, hd2⟩ := DAG.depthLe_strict_of_edge he hd1
    exact ⟨b2, by omega, hd2⟩

lemma DAG.no_cycle_aux {g : DAG T} :
    ∀ (B a : Nat), g.depthLe B a = true → ∀ c, c ∈ g.edgesOf a → ¬ Reach g c a := by
  intro B
  induction B using Nat.strong_induction_on with
  | _ B ih =>
    intro a hB c hc hr
    obtain ⟨b1, hb1, hd1⟩ := DAG.reach_descent hr B hB
    obtain ⟨b2, heq, hd2⟩ := DAG.depthLe_strict_of_edge hc hd1
    exact ih b2 (by omega) a hd2 c hc hr

/-! Behavior of the traversal loop. -/

lemma DAG.dfs_empty_ok (g : DAG T) {m : Nat} (hm : 0 < m) (s : TravState) (r : Nat)
    (hs : s.stack = []) :
    g.dfs_bounded m s r =
      (.ok (), { stack := [], peak := max s.peak 1,
                 visited := s.visited ++ [r], calls := s.calls }) := by
  unfold DAG.dfs_bounded
  rw [hs, if_neg (by simp only [List.length_nil]; omega)]
  rfl

lemma DAG.dfs_empty_err (g : DAG T) (s : TravState) (r : Nat) (hs : s.stack = []) :
    g.dfs_bounded 0 s r = (.error .StackOverflow, s) := by
  unfold DAG.dfs_bounded
  rw [hs, if_pos (Nat.zero_le _)]

lemma DAG.traverseAux_ok {g : DAG T} {m : Nat} (hm : 0 < m) :
    ∀ (rs : List Nat) (s : TravState), s.stack = [] →
      (g.traverseAux m rs s).1 = .ok ()
      ∧ (g.traverseAux m rs s).2.visited = s.visited ++ rs
      ∧ (g.traverseAux m rs s).2.calls = s.calls
      ∧ (g.traverseAux m rs s).2.stack = []
      ∧ (g.traverseAux m rs s).2.peak ≤ max s.peak 1 := by
  intro rs
  induction rs with
  | nil =>
    intro s hs
    exact ⟨rfl, (List.append_nil _).symm, rfl, hs, le_max_left _ _⟩
  | cons r rs ih =>
    intro s hs
    simp only [DAG.traverseAux, g.dfs_empty_ok hm s r hs]
    obtain ⟨h1, h2, h3, h4, h5⟩ := ih
      { stack := [], peak := max s.peak 1, visited := s.visited ++ [r], calls := s.calls } rfl
    refine ⟨h1, ?_, h3, h4, ?_⟩
    · rw [h2]
      simp
    · refine le_trans h5 (le_of_eq ?_)
      show max (max s.peak 1) 1 = max s.peak 1
      rw [max_assoc, max_self]

lemma DAG.traverseAux_err_zero {g : DAG T} (r : Nat) (rs : List Nat) (s : TravState)
    (hs : s.stack = []) :
    g.traverseAux 0 (r :: rs) s = (.error .StackOverflow, s) := by
  simp only [DAG.traverseAux, g.dfs_empty_err s r hs]

/-! Further branch helpers shared by several results. -/

lemma DAG.add_node_snd_of_error {g : DAG T} {d : T} {e : DepthViolation}
    (h : (g.add_node d).1 = .error e) : (g.add_node d).2 = g := by
  rcases g.add_node_cases d with ⟨_, h2⟩ | ⟨h1, _⟩
  · exact h2
  · rw [h1] at h
    exact Except.noConfusion h

lemma DAG.add_node_snd_length_of_ok {g : DAG T} {d : T} {id : Nat}
    (h : (g.add_node d).1 = .ok id) : (g.add_node d).2.nodes.length = g.nodes.length + 1 := by
  rcases g.add_node_cases d with ⟨h1, _⟩ | ⟨_, h2⟩
  · rw [h1] at h
    exact Except.noConfusion h
  · rw [h2, List.length_append]
    rfl

/-- C1: for every sequence of public-API calls (successful or failed calls
interleaved; failed calls leave the graph unchanged), every node of the
resulting graph has every ancestor chain bounded by ceil(log2 n); moreover
`add_node` accepts exactly when the candidate depth is within the bound for
the resulting count (which, the fresh node being a depth-0 potential root,
always holds), and its only possible failure is
`DepthViolation::ExceedsLogN`. -/
theorem c1_depth_invariant (ops : List (Op T)) :
    (∀ v, v < (runOps ops).nodes.length →
        ∀ k, ChainTo (runOps ops) v k → k ≤ clog2 (runOps ops).nodes.length)
    ∧ (∀ d : T,
        (∃ id, ((runOps ops).add_node d).1 = .ok id)
          ↔ (runOps ops).compute_depth (runOps ops).nodes.length
              ≤ clog2 ((runOps ops).nodes.length + 1))
    ∧ (∀ (d : T) (e : DepthViolation),
        ((runOps ops).add_node d).1 = .error e → e = DepthViolation.ExceedsLogN) := by
  have hInv := Inv_runOps ops
  refine ⟨?_, ?_, ?_⟩
  · intro v hv k hk
    exact (DAG.depthLe_iff_chains _ _).mp (DAG.depthOk_spec hInv.2 hv) k hk
  · intro d
    constructor
    · intro _
      rw [DAG.compute_depth_fresh hInv.1]
      exact Nat.zero_le _
    · intro _
      exact ⟨(runOps ops).nodes.length, by rw [DAG.add_node_spec hInv.1 d]⟩
  · intro d e he
    rw [DAG.add_node_spec hInv.1 d] at he

def c1ops : List (Op Nat) := [Op.addNode 0, Op.addNode 1, Op.addEdge 0 1]

theorem c1_witness :
    1 ≤ clog2 (runOps c1ops).nodes.length
    ∧ (∃ id, ((runOps c1ops).add_node (7 : Nat)).1 = Except.ok id) :=
  ⟨(c1_depth_invariant c1ops).1 1 (by decide) 1
      (ChainTo.succ (by decide) (ChainTo.zero 0)),
   ((c1_depth_invariant c1ops).2.1 7).mpr (by decide)⟩

/-- C4: whenever `add_node` (or the spec's `add_edge`) returns an error, the
graph afterwards is the graph before the call — in particular node count,
edge set and all depths are unchanged. -/
theorem c4_failed_call_leaves_graph_unchanged (g : DAG T) (d : T) (p c : Nat) :
    (∀ e, (g.add_node d).1 = .error e → (g.add_node d).2 = g)
    ∧ (∀ e, (g.add_edge p c).1 = .error e → (g.add_edge p c).2 = g) := by
  constructor
  · intro e he
    exact DAG.add_node_snd_of_error he
  · intro e he
    unfold DAG.add_edge at he ⊢
    by_cases h1 : g.nodes.length ≤ p ∨ g.nodes.length ≤ c
    · rw [if_pos h1]
    · rw [if_neg h1] at he ⊢
      by_cases h2 : g.reachF g.nodes.length c p = true
      · rw [if_pos h2]
      · rw [if_neg h2] at he ⊢
        by_cases h3 : (g.setEdges p c).DepthOkB = true
        · rw [if_pos h3] at he
          exact Except.noConfusion he
        · rw [if_neg h3]

def c4graph : DAG Nat := ((DAG.new Nat).add_node 3).2

theorem c4_witness : (c4graph.add_edge 0 0).2 = c4graph :=
  (c4_failed_call_leaves_graph_unchanged c4graph 3 0 0).2
    (AddEdgeError.cycleErr CycleViolation.CreatesCycle) rfl

/-- C6: every graph produced through the public API is acyclic — no node is
reachable from itself along a nonempty edge path (stated as: following any
edge out of a never leads back to a). -/
theorem c6_acyclic (ops : List (Op T)) (a b : Nat)
    (he : b ∈ (runOps ops).edgesOf a) : ¬ Reach (runOps ops) b a := by
  have hInv := Inv_runOps ops
  exact DAG.no_cycle_aux (clog2 (runOps ops).nodes.length) a
    (DAG.depthOk_spec hInv.2 (DAG.edge_src_lt he)) b he

def c6ops : List (Op Nat) := [Op.addNode 3, Op.addNode 4, Op.addEdge 0 1]

theorem c6_witness : ¬ Reach (runOps c6ops) 1 0 :=
  c6_acyclic c6ops 0 1 (by decide)

/-- C7: `validate_complexity` succeeds exactly on a declared `LogN` class,
and on any other declared class fails with
`ComplexityViolation::Expected { expected: LogN, actual: declared }`. -/
theorem c7_validate_complexity (s : DesignSolution) :
    (s.validate_complexity = .ok () ↔ s.complexity = Complexity.LogN)
    ∧ (∀ c : Complexity, s.complexity = c → c ≠ Complexity.LogN →
        s.validate_complexity = .error (.Expected Complexity.LogN c)) := by
  obtain ⟨c0⟩ := s
  constructor
  · cases c0 <;> simp [DesignSolution.validate_complexity]
  · intro c hc hne
    subst hc
    cases c0 with
    | LogN => exact absurd rfl hne
    | Constant => rfl
    | Linear => rfl
    | Quadratic => rfl

theorem c7_witness :
    (DesignSolution.mk Complexity.Linear).validate_complexity
      = .error (.Expected Complexity.LogN Complexity.Linear) :=
  (c7_validate_complexity ⟨Complexity.Linear⟩).2 Complexity.Linear rfl (by decide)

/-- C2: during `traverse` the pending-visit stack never holds more than
ceil(log2 n) entries (the instrumented high-water mark is within the bound),
and whenever pushing the next frame would exceed the bound the traversal
returns `AuxSpaceViolation::StackOverflow` immediately, having visited
nothing further (on the only reachable error path nothing at all was
visited yet). -/
theorem c2_traverse_stack_bound (g : DAG T) (f : T → Unit) :
    (g.traverse f).2.peak ≤ clog2 g.nodes.length
    ∧ (∀ e, (g.traverse f).1 = .error e →
        e = AuxSpaceViolation.StackOverflow ∧ (g.traverse f).2.visited = []) := by
  unfold DAG.traverse
  cases hm : clog2 g.nodes.length with
  | zero =>
    cases hr : g.find_roots with
    | nil =>
      constructor
      · exact Nat.le_refl 0
      · intro e he
        exact Except.noConfusion he
    | cons r rs =>
      rw [DAG.traverseAux_err_zero r rs TravState.init rfl]
      exact ⟨Nat.le_refl 0, fun e he => ⟨(Except.error.inj he).symm, rfl⟩⟩
  | succ k =>
    have hok := DAG.traverseAux_ok (g := g) (m := k + 1) (Nat.succ_pos k)
      g.find_roots TravState.init rfl
    constructor
    · refine le_trans hok.2.2.2.2 ?_
      have hz : TravState.init.peak = 0 := rfl
      rw [hz, Nat.zero_max]
      omega
    · intro e he
      rw [hok.1] at he
      exact Except.noConfusion he

def c2graph : DAG Nat := ((DAG.new Nat).add_node 5).2

theorem c2_witness :
    (c2graph.traverse (fun _ => ())).2.peak ≤ clog2 c2graph.nodes.length
    ∧ (c2graph.traverse (fun _ => ())).2.visited = [] :=
  ⟨(c2_traverse_stack_bound c2graph (fun _ => ())).1,
   ((c2_traverse_stack_bound c2graph (fun _ => ())).2
      AuxSpaceViolation.StackOverflow rfl).2⟩

def c3graph : DAG Nat := (((DAG.new Nat).add_node 0).2.add_node 1).2

/-- C3 (code bug evidence): on the two-node graph built by two `add_node`
calls, `traverse` completes with `Ok(())` yet the visitor is invoked on zero
payloads — the source's `dfs_bounded` body is a stub that never calls the
visitor — contradicting the specified exactly-once topological visit. -/
theorem c3_visitor_never_invoked :
    c3graph.nodes.length = 2
    ∧ (c3graph.traverse (fun _ => ())).1 = .ok ()
    ∧ (c3graph.traverse (fun _ => ())).2.calls = [] :=
  ⟨rfl, rfl, rfl⟩

/-- C5: `traverse` is deterministic — on the graph built by a fixed insertion
sequence its entire observable outcome is independent of the visitor, the
visited ids are exactly the roots in ascending insertion (id) order (or the
empty prefix when the traversal aborts), and the visit order is strictly
ascending. -/
theorem c5_deterministic_root_order (ops : List (Op T)) (f₁ f₂ : T → Unit) :
    (runOps ops).traverse f₁ = (runOps ops).traverse f₂
    ∧ (((runOps ops).traverse f₁).2.visited = (runOps ops).find_roots
       ∨ ((runOps ops).traverse f₁).2.visited = [])
    ∧ List.Pairwise (· < ·) (((runOps ops).traverse f₁).2.visited) := by
  refine ⟨rfl, ?_⟩
  have hpair : List.Pairwise (· < ·) ((runOps ops).find_roots) :=
    List.Pairwise.sublist (List.filter_sublist _) (List.pairwise_lt_range _)
  unfold DAG.traverse
  cases hm : clog2 (runOps ops).nodes.length with
  | zero =>
    cases hr : (runOps ops).find_roots with
    | nil => exact ⟨Or.inr rfl, List.Pairwise.nil⟩
    | cons r rs =>
      rw [DAG.traverseAux_err_zero r rs TravState.init rfl]
      exact ⟨Or.inr rfl, List.Pairwise.nil⟩
  | succ k =>
    have hok := DAG.traverseAux_ok (g := runOps ops) (m := k + 1) (Nat.succ_pos k)
      (runOps ops).find_roots TravState.init rfl
    have hv : ((runOps ops).traverseAux (k + 1) (runOps ops).find_roots TravState.init).2.visited
        = (runOps ops).find_roots := by
      rw [hok.2.1]
      exact List.nil_append _
    rw [hv]
    exact ⟨Or.inl rfl, hpair⟩

/-- C9: on every API-built graph holding exactly one node, `traverse` fails
with `AuxSpaceViolation::StackOverflow` without invoking the visitor and
without visiting anything: the bound ceil(log2 1) = 0 forbids pushing even
the single root's frame. -/
theorem c9_single_node_stack_overflow (ops : List (Op T)) (f : T → Unit)
    (h1 : (runOps ops).nodes.length = 1) :
    ((runOps ops).traverse f).1 = .error AuxSpaceViolation.StackOverflow
    ∧ ((runOps ops).traverse f).2.calls = []
    ∧ ((runOps ops).traverse f).2.visited = [] := by
  have hInv := Inv_runOps ops
  have hd : (runOps ops).depthLe (clog2 (runOps ops).nodes.length) 0 = true :=
    DAG.depthOk_spec hInv.2 (by omega)
  rw [h1] at hd
  have hc1 : clog2 1 = 0 := rfl
  rw [hc1] at hd
  have hp : (runOps ops).parents 0 = [] := by
    rw [DAG.depthLe] at hd
    exact List.isEmpty_iff.mp hd
  have hroots : (runOps ops).find_roots = [0] := by
    unfold DAG.find_roots
    have hr1 : List.range 1 = [0] := rfl
    rw [h1, hr1]
    simp [hp]
  unfold DAG.traverse
  rw [h1, hc1, hroots, DAG.traverseAux_err_zero 0 [] TravState.init rfl]
  exact ⟨rfl, rfl, rfl⟩

theorem c9_witness :
    ((runOps [Op.addNode (5 : Nat)]).traverse (fun _ => ())).1
        = .error AuxSpaceViolation.StackOverflow
    ∧ ((runOps [Op.addNode (5 : Nat)]).traverse (fun _ => ())).2.calls = []
    ∧ ((runOps [Op.addNode (5 : Nat)]).traverse (fun _ => ())).2.visited = [] :=
  c9_single_node_stack_overflow [Op.addNode 5] (fun _ => ()) rfl

/-! Registration through the HDIS integration. -/

lemma HDISIntegration.register_archerion_eq {A : Type} (h : HDISIntegration A) (a : A) :
    h.register_archerion a =
      match (h.dag.add_node a).1 with
      | .error e => (.error (.fromDepth e), { h with dag := (h.dag.add_node a).2 })
      | .ok id =>
        match h.hdis.register_component id a with
        | .error e => (.error e, { h with dag := (h.dag.add_node a).2 })
        | .ok _ =>
          match h.hdis.enable_self_repair id with
          | .error e => (.error e, { h with dag := (h.dag.add_node a).2 })
          | .ok _ => (.ok (), { h with dag := (h.dag.add_node a).2 }) := by
  unfold HDISIntegration.register_archerion
  rcases h.dag.add_node a with ⟨r, dag₁⟩
  cases r <;> rfl

/-- Monitor that synchronously rejects every registration: an admissible
instantiation of the external collaborator's boundary contract. -/
def rejectingMonitor : HybridDirectedInstruction Nat :=
  { register_component := fun _ _ => .error (.rejected 0),
    enable_self_repair := fun _ => .ok () }

def c8start : HDISIntegration Nat := { dag := DAG.new Nat, hdis := rejectingMonitor }

/-- C8 counterexample: starting from an empty graph with a monitor that
rejects the registration, `register_archerion` returns the `TopologyError`,
yet the node count has grown from 0 to 1 — the node is present in the graph
after the failed registration, so registration is not all-or-nothing. -/
theorem c8_counterexample :
    (c8start.register_archerion 7).1 = .error (TopologyError.rejected 0)
    ∧ c8start.dag.nodes.length = 0
    ∧ (c8start.register_archerion 7).2.dag.nodes.length = 1 :=
  ⟨rfl, rfl, rfl⟩

/-- C8 amended: `register_archerion` is atomic only with respect to the
graph insertion itself — if `add_node` fails the graph is unchanged; in
every other outcome (success, or a synchronous monitor rejection by
`register_component` or `enable_self_repair`) the node has been inserted and
stays inserted, the node count growing by one even when the call returns an
error. -/
theorem c8_registration_not_atomic {A : Type} (h : HDISIntegration A) (a : A) :
    ((h.register_archerion a).1 = .error (.fromDepth DepthViolation.ExceedsLogN)
      ∧ (h.register_archerion a).2.dag = h.dag)
    ∨ (h.register_archerion a).2.dag.nodes.length = h.dag.nodes.length + 1 := by
  rcases DAG.add_node_cases h.dag a with ⟨h1, h2⟩ | ⟨h1, h2⟩
  · left
    rw [HDISIntegration.register_archerion_eq]
    simp only [h1]
    exact ⟨trivial, h2⟩
  · right
    rw [HDISIntegration.register_archerion_eq]
    simp only [h1]
    have hlen : (h.dag.add_node a).2.nodes.length = h.dag.nodes.length + 1 := by
      rw [h2, List.length_append]
      rfl
    cases hrc : h.hdis.register_component h.dag.nodes.length a with
    | error e =>
      simp only [hrc]
      exact hlen
    | ok u =>
      simp only [hrc]
      cases hsr : h.hdis.enable_self_repair h.dag.nodes.length with
      | error e =>
        simp only [hsr]
        exact hlen
      | ok u2 =>
        simp only [hsr]
        exact hlen

/-! All-roots structure of graphs built through the interface src defines. -/

lemma allEdgesEmpty_foldl : ∀ (ds : List T) (g : DAG T),
    (g.nodes.all fun nd => nd.edges.isEmpty) = true →
    (((ds.foldl (fun g d => (g.add_node d).2) g)).nodes.all fun nd => nd.edges.isEmpty)
      = true := by
  intro ds
  induction ds with
  | nil => exact fun g h => h
  | cons d ds ih =>
    intro g h
    refine ih _ ?_
    show ((g.add_node d).2.nodes.all fun nd => nd.edges.isEmpty) = true
    rcases g.add_node_cases d with ⟨_, h2⟩ | ⟨_, h2⟩
    · rw [h2]
      exact h
    · rw [List.all_eq_true]
      intro nd hnd
      rw [h2] at hnd
      rcases List.mem_append.mp hnd with hnd | hnd
      · exact (List.all_eq_true.mp h) nd hnd
      · rw [List.mem_singleton] at hnd
        subst hnd
        rfl

lemma parents_nil_of_allEmpty {g : DAG T}
    (h : (g.nodes.all fun nd => nd.edges.isEmpty) = true) (v : Nat) :
    g.parents v = [] := by
  apply g.parents_eq_nil
  intro u hu
  unfold DAG.edgesOf at hu
  cases hnd : g.nodes[u]? with
  | none =>
    simp only [hnd] at hu
    exact absurd hu (List.not_mem_nil v)
  | some nd =>
    simp only [hnd] at hu
    have hmem : nd ∈ g.nodes := by
      have := List.getElem?_eq_some.mp hnd
      obtain ⟨hlt, hval⟩ := this
      exact hval ▸ List.getElem_mem hlt
    have hemp := (List.all_eq_true.mp h) nd hmem
    rw [List.isEmpty_iff] at hemp
    rw [hemp] at hu
    exact absurd hu (List.not_mem_nil v)

/-- C10: through the mutating interface src actually defines (only
`add_node`; no edge-appending operation exists in src), every node keeps an
empty edge list and every node is a root, so `find_roots` returns all
ids. -/
theorem c10_no_edges_all_roots (ds : List T) :
    ((runNodesOnly ds).nodes.all fun nd => nd.edges.isEmpty) = true
    ∧ (runNodesOnly ds).find_roots = List.range (runNodesOnly ds).nodes.length := by
  have hall : ((runNodesOnly ds).nodes.all fun nd => nd.edges.isEmpty) = true :=
    allEdgesEmpty_foldl ds (DAG.new T) rfl
  refine ⟨hall, ?_⟩
  unfold DAG.find_roots
  apply List.filter_eq_self.mpr
  intro v _
  rw [parents_nil_of_allEmpty hall v]
  rfl
